import Mathlib

/-!
Verification of the dtop container dashboard: a shallow embedding of the
tree/grouping model (`model/tree.go`), the viewport logic (`ui`), the docker
client's listing/statistics pipeline (`docker/client.go`) and the CLI entry
point (`main.go`), together with theorems settling the specification claims.

Go machine integers are modelled as `Nat`/`Int` with explicit wraparound where
overflow matters; `float64` arithmetic on counter values is modelled over `ℚ`
(exact field arithmetic); strings are Lean `String`s, whose character-wise
lexicographic order coincides with Go's byte-wise order on valid UTF-8.
-/

namespace Dtop

/-- `docker.ContainerInfo` (docker/client.go): the per-container record.
`CPUPerc`/`MemPerc` (`float64`) are modelled over `ℚ`; `NetRx`/`NetTx`
(`uint64`) as `Nat`; `CreatedAt` as an integer unix time; `Labels` as an
association list. -/
structure ContainerInfo where
  id : String
  name : String
  image : String
  state : String
  status : String
  cpuPerc : ℚ
  memPerc : ℚ
  memUsage : String
  netRx : Nat
  netTx : Nat
  createdAt : Int
  labels : List (String × String)
deriving DecidableEq, Repr

/-- Helper: a `ContainerInfo` with the given name and all other fields at
their zero values (used for concrete test inputs). -/
def mkC (n : String) : ContainerInfo :=
  { id := "", name := n, image := "", state := "", status := "", cpuPerc := 0,
    memPerc := 0, memUsage := "", netRx := 0, netTx := 0, createdAt := 0,
    labels := [] }

/-- `model.ParseProjectName` (model/tree.go:38-51): substring before the first
`_` if any, else before the first `-` if any, else the whole name.
Go's `strings.Index` finds the first byte index; on valid UTF-8 the bytes
`_`/`-` only occur as standalone characters, so the character-level scan is
equivalent. -/
def ParseProjectName (containerName : String) : String :=
  let cs := containerName.toList
  if '_' ∈ cs then String.mk (cs.takeWhile (fun c => c ≠ '_'))
  else if '-' ∈ cs then String.mk (cs.takeWhile (fun c => c ≠ '-'))
  else containerName

/-- Decomposition of a list at the first occurrence of an element:
`takeWhile (· ≠ c)` is exactly the part before the first `c`. -/
theorem takeWhile_ne_decomp {α : Type} [DecidableEq α] (c : α) :
    ∀ (l : List α), c ∈ l →
      (∃ rest, l = l.takeWhile (fun x => x ≠ c) ++ c :: rest) ∧
        c ∉ l.takeWhile (fun x => x ≠ c) := by
  intro l hl
  induction l with
  | nil => cases hl
  | cons a t ih =>
    by_cases hac : a = c
    · subst hac
      refine ⟨⟨t, ?_⟩, ?_⟩
      · simp [List.takeWhile]
      · simp [List.takeWhile]
    · have hct : c ∈ t := by
        rcases List.mem_cons.mp hl with h | h
        · exact absurd h.symm hac
        · exact h
      obtain ⟨⟨rest, hrest⟩, hnotin⟩ := ih hct
      have hstep : (a :: t).takeWhile (fun x => x ≠ c) =
          a :: t.takeWhile (fun x => x ≠ c) := by
        simp [List.takeWhile, hac]
      refine ⟨⟨rest, ?_⟩, ?_⟩
      · rw [hstep]
        simpa using hrest
      · rw [hstep]
        intro hmem
        rcases List.mem_cons.mp hmem with h | h
        · exact hac h.symm
        · exact hnotin h

/-- C5: `ParseProjectName` returns the substring before the first underscore
if one occurs, else the substring before the first dash if one occurs, else
the whole name unchanged — no normalization or case folding; and the four
concrete examples `"shopapp_web_1" ↦ "shopapp"`, `"shopapp-db-1" ↦ "shopapp"`,
`"standalone" ↦ "standalone"`, `"a_b-c" ↦ "a"`. -/
theorem parseProjectName_spec :
    (∀ name : String,
      ('_' ∈ name.toList →
        (∃ rest, name.toList = (ParseProjectName name).toList ++ '_' :: rest) ∧
          '_' ∉ (ParseProjectName name).toList) ∧
      ('_' ∉ name.toList → '-' ∈ name.toList →
        (∃ rest, name.toList = (ParseProjectName name).toList ++ '-' :: rest) ∧
          '-' ∉ (ParseProjectName name).toList) ∧
      ('_' ∉ name.toList → '-' ∉ name.toList → ParseProjectName name = name)) ∧
    ParseProjectName "shopapp_web_1" = "shopapp" ∧
    ParseProjectName "shopapp-db-1" = "shopapp" ∧
    ParseProjectName "standalone" = "standalone" ∧
    ParseProjectName "a_b-c" = "a" := by
  refine ⟨fun name => ⟨?_, ?_, ?_⟩, by decide, by decide, by decide, by decide⟩
  · intro hu
    have hu' : '_' ∈ name.data := hu
    obtain ⟨⟨rest, hrest⟩, hnotin⟩ := takeWhile_ne_decomp '_' name.data hu'
    constructor
    · exact ⟨rest, by simpa [ParseProjectName, String.toList, hu'] using hrest⟩
    · simpa [ParseProjectName, String.toList, hu'] using hnotin
  · intro hu hd
    have hu' : '_' ∉ name.data := hu
    have hd' : '-' ∈ name.data := hd
    obtain ⟨⟨rest, hrest⟩, hnotin⟩ := takeWhile_ne_decomp '-' name.data hd'
    constructor
    · exact ⟨rest, by simpa [ParseProjectName, String.toList, hu', hd'] using hrest⟩
    · simpa [ParseProjectName, String.toList, hu', hd'] using hnotin
  · intro hu hd
    have hu' : '_' ∉ name.data := hu
    have hd' : '-' ∉ name.data := hd
    simp [ParseProjectName, String.toList, hu', hd']

/-- Witness for C5 at a concrete input: `"a_b-c"` contains `'_'`, and the
decomposition produced by the theorem holds there. -/
theorem parseProjectName_spec_witness :
    '_' ∈ "a_b-c".toList ∧
      (∃ rest, "a_b-c".toList = (ParseProjectName "a_b-c").toList ++ '_' :: rest) ∧
        '_' ∉ (ParseProjectName "a_b-c").toList :=
  ⟨by decide, (parseProjectName_spec.1 "a_b-c").1 (by decide)⟩

/-- `model.NodeType` (model/tree.go:11-16). -/
inductive NodeType where
  | project
  | container
deriving DecidableEq, Repr

/-- `model.TreeNode` (model/tree.go:18-25). A recursive inductive instead of a
pointer structure; the Go `Parent` back-pointer is not stored here — ancestry
is reconstructed during flattening (see `FlatNode.anc`), which is the only use
the Go code makes of it (depth/path computation). -/
inductive TreeNode where
  | mk (type : NodeType) (name : String) (container : Option ContainerInfo)
      (expanded : Bool) (children : List TreeNode)

def TreeNode.type : TreeNode → NodeType
  | .mk t _ _ _ _ => t

def TreeNode.name : TreeNode → String
  | .mk _ n _ _ _ => n

def TreeNode.container : TreeNode → Option ContainerInfo
  | .mk _ _ c _ _ => c

def TreeNode.expanded : TreeNode → Bool
  | .mk _ _ _ e _ => e

def TreeNode.children : TreeNode → List TreeNode
  | .mk _ _ _ _ ch => ch

/-- One entry of the flattened view `Tree.Flat`. In Go these are pointers to
tree nodes; here each entry carries the node's own fields plus `anc`, the
chain of names from the node itself up to (and including) the synthetic root —
exactly the chain the Go `Parent` pointers provide to `GetNodePath`. -/
structure FlatNode where
  type : NodeType
  name : String
  container : Option ContainerInfo
  anc : List String
deriving DecidableEq, Repr

/-- `Tree.GetNodePath` (model/tree.go:178-192): walk from the node upward,
collecting names, stopping at the first node named `"root"`; join with `/`.
The upward walk over parents is the traversal of `anc` front-to-back. -/
def GetNodePath (n : FlatNode) : String :=
  String.intercalate "/" (n.anc.takeWhile (fun s => s ≠ "root")).reverse

mutual

/-- `Tree.flattenNode` (model/tree.go:121-133): pre-order emission; a node is
emitted unless it is a project named `"root"`; children are visited only when
the node is expanded. `anc` is the ancestor name chain above the node;
`flattenTrees` is the loop over the children. -/
def flattenNode (anc : List String) : TreeNode → List FlatNode
  | .mk ty nm c exp ch =>
    (if ty = NodeType.project ∧ nm = "root" then [] else [⟨ty, nm, c, nm :: anc⟩])
      ++ (if exp then flattenTrees (nm :: anc) ch else [])

def flattenTrees (anc : List String) : List TreeNode → List FlatNode
  | [] => []
  | n :: rest => flattenNode anc n ++ flattenTrees anc rest

end

/-- The child loop is the flattened map over the children. -/
theorem flattenTrees_eq_map (anc : List String) :
    ∀ ch : List TreeNode, flattenTrees anc ch = (ch.map (flattenNode anc)).flatten := by
  intro ch
  induction ch with
  | nil => rfl
  | cons n rest ih => simp [flattenTrees, ih]

/-- `model.Tree` (model/tree.go:27-31). `Selected` is a Go `int`, modelled as
`Int`. -/
structure Tree where
  root : TreeNode
  flat : List FlatNode
  selected : Int

/-- `Tree.UpdateFlatView` (model/tree.go:116-119). -/
def UpdateFlatView (t : Tree) : Tree :=
  { t with flat := flattenNode [] t.root }

/-- Go string `<` is byte-wise lexicographic; on valid UTF-8 that coincides
with character-wise lexicographic comparison, written here over `toList`
(equivalent to Lean's `String` order by `String.le_iff_toList_le`).
`sort.Strings` sorts ascending; the Go sort is modelled by insertion sort,
which produces the same list: both are sorted permutations, and on
duplicate-free keys the sorted permutation is unique. -/
def strLeC (a b : String) : Prop := a.toList ≤ b.toList

instance : DecidableRel strLeC :=
  fun a b => inferInstanceAs (Decidable (a.toList ≤ b.toList))

instance : IsTotal String strLeC := ⟨fun a b => le_total a.toList b.toList⟩

instance : IsTrans String strLeC := ⟨fun _ _ _ hab hbc => le_trans hab hbc⟩

/-- `strLeC` is the `String` order. -/
theorem strLeC_iff (a b : String) : strLeC a b ↔ a ≤ b :=
  (String.le_iff_toList_le).symm

/-- `sort.Strings` (model/tree.go:74). -/
def sortStrings (xs : List String) : List String :=
  List.insertionSort strLeC xs

/-- The comparison `sort.Slice` uses in `BuildTree` (model/tree.go:81-83):
ascending container name. -/
def byNameLE (a b : ContainerInfo) : Prop := strLeC a.name b.name

instance : DecidableRel byNameLE :=
  fun a b => inferInstanceAs (Decidable (strLeC a.name b.name))

instance : IsTotal ContainerInfo byNameLE :=
  ⟨fun a b => le_total a.name.toList b.name.toList⟩

instance : IsTrans ContainerInfo byNameLE :=
  ⟨fun _ _ _ hab hbc => le_trans hab hbc⟩

/-- `model.BuildTree` (model/tree.go:54-113). The Go map `projects` holds the
set of distinct project names (dedup) whose iteration order is immaterial
because the keys are collected and sorted; within a project the members
are the containers whose parsed project name matches, in input order, then
sorted by name (`sort.Slice`; tie order among equal names is unspecified in Go
and is modelled here by a stable sort — container names are unique in a
runtime). -/
def BuildTree (containers : List ContainerInfo) : Tree :=
  let projectNames :=
    sortStrings ((containers.map (fun c => ParseProjectName c.name)).dedup)
  let children := projectNames.map (fun p =>
    let cs := List.insertionSort byNameLE
      (containers.filter (fun c => ParseProjectName c.name = p))
    TreeNode.mk NodeType.project p none true
      (cs.map (fun c => TreeNode.mk NodeType.container c.name (some c) false [])))
  let root := TreeNode.mk NodeType.project "root" none true children
  UpdateFlatView { root := root, flat := [], selected := 0 }

/-- `Tree.GetSelected` (model/tree.go:136-141). -/
def GetSelected (t : Tree) : Option FlatNode :=
  if t.selected < 0 ∨ (t.flat.length : Int) ≤ t.selected then none
  else t.flat.get? t.selected.toNat

/-- `Tree.MoveUp` (model/tree.go:144-148). -/
def MoveUp (t : Tree) : Tree :=
  if 0 < t.selected then { t with selected := t.selected - 1 } else t

/-- `Tree.MoveDown` (model/tree.go:151-155). -/
def MoveDown (t : Tree) : Tree :=
  if t.selected < (t.flat.length : Int) - 1 then { t with selected := t.selected + 1 }
  else t

/-- `Tree.RestoreSelection` (model/tree.go:195-212). -/
def RestoreSelection (t : Tree) (path : String) : Tree :=
  if path = "" then t
  else
    match t.flat.findIdx? (fun n => GetNodePath n = path) with
    | some i => { t with selected := (i : Int) }
    | none =>
      if (t.flat.length : Int) ≤ t.selected then { t with selected := 0 } else t

/-- The expansion-restore step of the refresh handler (part_002:117-124):
for each child of the root that is a project, set its expanded flag from the
saved map (modelled as a total function). -/
def applyExpanded (e : String → Bool) : TreeNode → TreeNode
  | .mk ty nm c exp ch =>
    .mk ty nm c exp (ch.map (fun n =>
      match n with
      | .mk cty cnm cc cexp cch =>
        .mk cty cnm cc (if cty = NodeType.project then e cnm else cexp) cch))

/-- Refresh path: restore expansion flags, then `UpdateFlatView`
(part_002:117-124). -/
def withExpansion (t : Tree) (e : String → Bool) : Tree :=
  UpdateFlatView { t with root := applyExpanded e t.root }

/-- The flip performed by `Tree.ToggleExpanded` (model/tree.go:158-164) on a
selected project node. Go flips `Expanded` through the pointer stored in
`Flat`; in the trees this program builds the selected project is a child of
the root uniquely identified by its name, so the flip is modelled by name. -/
def toggleChildExpanded (p : String) : TreeNode → TreeNode
  | .mk ty nm c exp ch =>
    .mk ty nm c exp (ch.map (fun n =>
      match n with
      | .mk cty cnm cc cexp cch =>
        .mk cty cnm cc (if cty = NodeType.project ∧ cnm = p then !cexp else cexp) cch))

/-- Flip a root-child project's expanded flag, then `UpdateFlatView`
(model/tree.go:158-164). -/
def ToggleProject (t : Tree) (p : String) : Tree :=
  UpdateFlatView { t with root := toggleChildExpanded p t.root }

/-- `Tree.ToggleExpanded` (model/tree.go:158-164): only acts when the selected
flat entry is a project. -/
def ToggleExpanded (t : Tree) : Tree :=
  match GetSelected t with
  | some n => if n.type = NodeType.project then ToggleProject t n.name else t
  | none => t

/-- The sorted distinct project names `BuildTree` derives from a container
list (model/tree.go:63-74). -/
def projNames (cs : List ContainerInfo) : List String :=
  sortStrings ((cs.map (fun c => ParseProjectName c.name)).dedup)

/-- The name-sorted members of one project group (model/tree.go:78-83). -/
def projCtrs (cs : List ContainerInfo) (p : String) : List ContainerInfo :=
  List.insertionSort byNameLE (cs.filter (fun c => ParseProjectName c.name = p))

/-- The container child nodes of one project node (model/tree.go:93-101). -/
def ctrNodesOf (cs : List ContainerInfo) (p : String) : List TreeNode :=
  (projCtrs cs p).map (fun c => TreeNode.mk NodeType.container c.name (some c) false [])

/-- The flat entry of a top-level project node. -/
def projEntry (p : String) : FlatNode :=
  ⟨NodeType.project, p, none, [p, "root"]⟩

/-- The flat entries of one project's container children. -/
def ctrEntries (cs : List ContainerInfo) (p : String) : List FlatNode :=
  (projCtrs cs p).map (fun c =>
    ⟨NodeType.container, c.name, some c, [c.name, p, "root"]⟩)

/-- What one project contributes to the flat view: its own line — unless it is
named `"root"`, which `flattenNode` suppresses — followed by its members when
expanded. -/
def projBlock (cs : List ContainerInfo) (e : String → Bool) (p : String) :
    List FlatNode :=
  (if p = "root" then [] else [projEntry p]) ++ (if e p then ctrEntries cs p else [])

/-- Number of project nodes of a tree (the root's children; the synthetic root
is not counted). -/
def numProjects (t : Tree) : Nat := t.root.children.length

/-- Number of container nodes whose parent project is expanded. -/
def numContainersInExpanded (t : Tree) : Nat :=
  (t.root.children.map (fun p => if p.expanded then p.children.length else 0)).sum

/-- `flattenNode` unfolded, with the child loop as a flattened map. -/
theorem flattenNode_mk (anc : List String) (ty : NodeType) (nm : String)
    (c : Option ContainerInfo) (exp : Bool) (ch : List TreeNode) :
    flattenNode anc (.mk ty nm c exp ch) =
      (if ty = NodeType.project ∧ nm = "root" then [] else [⟨ty, nm, c, nm :: anc⟩])
        ++ (if exp then (ch.map (flattenNode (nm :: anc))).flatten else []) := by
  rw [flattenNode, flattenTrees_eq_map]

/-- Joining singletons is the identity. -/
theorem flatten_map_single {α : Type} (l : List α) :
    (l.map (fun x => [x])).flatten = l := by
  induction l with
  | nil => rfl
  | cons a t ih => simp [ih]

/-- Flattening a two-level tree: the flat view is the concatenation of the
per-project blocks. -/
theorem flatten_projRoot (cs : List ContainerInfo) (b : String → Bool) :
    flattenNode [] (.mk NodeType.project "root" none true
        ((projNames cs).map (fun p =>
          TreeNode.mk NodeType.project p none (b p) (ctrNodesOf cs p)))) =
      ((projNames cs).map (projBlock cs b)).flatten := by
  have hproj : ∀ p : String,
      flattenNode ["root"] (TreeNode.mk NodeType.project p none (b p) (ctrNodesOf cs p))
        = projBlock cs b p := by
    intro p
    rw [flattenNode_mk]
    have hleaf : (ctrNodesOf cs p).map (flattenNode [p, "root"]) =
        (ctrEntries cs p).map (fun x => [x]) := by
      simp only [ctrNodesOf, ctrEntries, List.map_map]
      refine List.map_congr_left ?_
      intro c _
      simp [Function.comp, flattenNode_mk]
    by_cases hp : p = "root"
    · subst hp
      cases hbp : b "root" <;>
        simp [projBlock, hbp, hleaf, flatten_map_single]
    · cases hbp : b p <;>
        simp [projBlock, hp, hbp, hleaf, flatten_map_single, projEntry]
  rw [flattenNode_mk]
  have hmap : ((projNames cs).map (fun p =>
      TreeNode.mk NodeType.project p none (b p) (ctrNodesOf cs p))).map
        (flattenNode ["root"]) = (projNames cs).map (projBlock cs b) := by
    rw [List.map_map]
    exact List.map_congr_left (fun p _ => hproj p)
  simp [hmap]

/-- The root `BuildTree` constructs. -/
theorem buildTree_root (cs : List ContainerInfo) :
    (BuildTree cs).root = .mk NodeType.project "root" none true
      ((projNames cs).map (fun p =>
        TreeNode.mk NodeType.project p none true (ctrNodesOf cs p))) := by
  simp [BuildTree, UpdateFlatView, projNames, projCtrs, ctrNodesOf]

/-- The flat view `BuildTree` computes, as per-project blocks (all projects
start expanded). -/
theorem flat_buildTree (cs : List ContainerInfo) :
    (BuildTree cs).flat =
      ((projNames cs).map (projBlock cs (fun _ => true))).flatten := by
  have h : (BuildTree cs).flat = flattenNode [] (BuildTree cs).root := by
    simp [BuildTree, UpdateFlatView]
  rw [h, buildTree_root]
  exact flatten_projRoot cs (fun _ => true)

/-- Restoring expansion flags on a built root keeps its shape, installing the
flags. -/
theorem applyExpanded_buildRoot (cs : List ContainerInfo) (e : String → Bool) :
    applyExpanded e (BuildTree cs).root = .mk NodeType.project "root" none true
      ((projNames cs).map (fun p =>
        TreeNode.mk NodeType.project p none (e p) (ctrNodesOf cs p))) := by
  rw [buildTree_root]
  simp [applyExpanded, List.map_map]

/-- The flat view after a rebuild with restored expansion flags. -/
theorem flat_withExpansion (cs : List ContainerInfo) (e : String → Bool) :
    (withExpansion (BuildTree cs) e).flat =
      ((projNames cs).map (projBlock cs e)).flatten := by
  have h : (withExpansion (BuildTree cs) e).flat =
      flattenNode [] (applyExpanded e (BuildTree cs).root) := by
    simp [withExpansion, UpdateFlatView]
  rw [h, applyExpanded_buildRoot]
  exact flatten_projRoot cs e

/-- Root children after a rebuild with restored expansion flags. -/
theorem rootChildren_withExpansion (cs : List ContainerInfo) (e : String → Bool) :
    (withExpansion (BuildTree cs) e).root.children =
      (projNames cs).map (fun p =>
        TreeNode.mk NodeType.project p none (e p) (ctrNodesOf cs p)) := by
  have h : (withExpansion (BuildTree cs) e).root = applyExpanded e (BuildTree cs).root := by
    simp [withExpansion, UpdateFlatView]
  rw [h, applyExpanded_buildRoot, TreeNode.children]

/-- Toggling a project on a tree with installed flags is the same as
installing pointwise-updated flags (the flip commutes with the restore step on
any node). -/
theorem toggle_applyExpanded (e : String → Bool) (p : String) (n : TreeNode) :
    toggleChildExpanded p (applyExpanded e n) =
      applyExpanded (fun q => if q = p then !e q else e q) n := by
  cases n with
  | mk ty nm c exp ch =>
    simp only [applyExpanded, toggleChildExpanded, List.map_map]
    congr 1
    refine List.map_congr_left ?_
    intro child _
    cases child with
    | mk cty cnm cc cexp cch =>
      by_cases hty : cty = NodeType.project
      · by_cases hnm : cnm = p <;> simp [hty, hnm]
      · simp [hty]

/-- The flat view after toggling project `p` on a rebuilt tree with flags `e`:
the blocks with `e` updated at `p`. -/
theorem flat_toggleProject (cs : List ContainerInfo) (e : String → Bool) (p : String) :
    (ToggleProject (withExpansion (BuildTree cs) e) p).flat =
      ((projNames cs).map
        (projBlock cs (fun q => if q = p then !e q else e q))).flatten := by
  have hroot : (withExpansion (BuildTree cs) e).root = applyExpanded e (BuildTree cs).root := by
    simp [withExpansion, UpdateFlatView]
  have h : (ToggleProject (withExpansion (BuildTree cs) e) p).flat =
      flattenNode [] (toggleChildExpanded p (applyExpanded e (BuildTree cs).root)) := by
    simp [ToggleProject, UpdateFlatView, hroot]
  rw [h, toggle_applyExpanded, applyExpanded_buildRoot]
  exact flatten_projRoot cs _

/-- `projNames` is sorted strictly ascending and has no duplicates. -/
theorem projNames_sorted_nodup (cs : List ContainerInfo) :
    (projNames cs).Nodup ∧ List.Sorted (· < ·) (projNames cs) := by
  have hperm : List.Perm (projNames cs)
      ((cs.map (fun c => ParseProjectName c.name)).dedup) :=
    List.perm_insertionSort _ _
  have hnd : (projNames cs).Nodup := hperm.symm.nodup (List.nodup_dedup _)
  have hsorted : (projNames cs).Pairwise (fun a b => a ≤ b) := by
    have hs : (projNames cs).Pairwise strLeC := by
      rw [projNames, sortStrings]
      exact List.sorted_insertionSort strLeC
        ((cs.map (fun c => ParseProjectName c.name)).dedup)
    exact hs.imp (fun h => (strLeC_iff _ _).mp h)
  refine ⟨hnd, ?_⟩
  have := hsorted.and hnd
  exact this.imp (fun ⟨hle, hne⟩ => lt_of_le_of_ne hle hne)

/-- C4: for every container list, `BuildTree` sorts the root's project
children by project name byte-wise ascending (strictly: names are distinct)
and each project's container children by container name byte-wise ascending;
for `["shopapp_web_1","shopapp_db_1","standalone"]` the projects come in
order `["shopapp","standalone"]` and shopapp's children in order
`["shopapp_db_1","shopapp_web_1"]`. -/
theorem buildTree_sorted :
    (∀ cs : List ContainerInfo,
      List.Sorted (· < ·) ((BuildTree cs).root.children.map TreeNode.name) ∧
      ((BuildTree cs).root.children.map
        (fun p => p.children.map TreeNode.name)).Forall
          (List.Sorted (· ≤ ·))) ∧
    (BuildTree [mkC "shopapp_web_1", mkC "shopapp_db_1",
      mkC "standalone"]).root.children.map TreeNode.name =
        ["shopapp", "standalone"] ∧
    (BuildTree [mkC "shopapp_web_1", mkC "shopapp_db_1",
      mkC "standalone"]).root.children.map
        (fun p => p.children.map TreeNode.name) =
      [["shopapp_db_1", "shopapp_web_1"], ["standalone"]] := by
  refine ⟨fun cs => ⟨?_, ?_⟩, by decide, by decide⟩
  · have h : (BuildTree cs).root.children.map TreeNode.name = projNames cs := by
      rw [buildTree_root]
      simp [TreeNode.children, TreeNode.name, List.map_map, Function.comp_def]
    rw [h]
    exact (projNames_sorted_nodup cs).2
  · rw [List.forall_iff_forall_mem]
    intro names hnames
    rw [buildTree_root] at hnames
    simp only [TreeNode.children, List.map_map, List.mem_map,
      Function.comp] at hnames
    obtain ⟨p, _, hp⟩ := hnames
    have hch : (ctrNodesOf cs p).map TreeNode.name =
        (projCtrs cs p).map ContainerInfo.name := by
      simp [ctrNodesOf, List.map_map, Function.comp_def, TreeNode.name]
    rw [← hp, hch]
    have hs : (projCtrs cs p).Pairwise byNameLE := by
      rw [projCtrs]
      exact List.sorted_insertionSort byNameLE _
    exact List.Pairwise.map _
      (fun a b hab => (strLeC_iff _ _).mp hab) hs

/-- Membership in a nodup list splits it with the element absent from both
sides. -/
theorem nodup_split {α : Type} {l : List α} {a : α} (ha : a ∈ l)
    (hnd : l.Nodup) :
    ∃ l1 l2, l = l1 ++ a :: l2 ∧ a ∉ l1 ∧ a ∉ l2 := by
  obtain ⟨l1, l2, rfl⟩ := List.append_of_mem ha
  rw [List.nodup_append] at hnd
  obtain ⟨h1, h2, hdisj⟩ := hnd
  refine ⟨l1, l2, rfl, ?_, (List.nodup_cons.mp h2).1⟩
  intro hmem
  exact hdisj hmem (List.mem_cons_self a l2)

/-- Blocks built from flags agreeing on the listed names coincide. -/
theorem blocks_congr (cs : List ContainerInfo) {e f : String → Bool}
    (ps : List String) (h : ∀ q ∈ ps, e q = f q) :
    (ps.map (projBlock cs e)).flatten = (ps.map (projBlock cs f)).flatten := by
  have : ps.map (projBlock cs e) = ps.map (projBlock cs f) :=
    List.map_congr_left (fun q hq => by simp [projBlock, h q hq])
  rw [this]

/-- C8: in a rebuilt tree with any expansion flags, collapsing a project
removes from the flattened view exactly its descendant entries, leaving every
other entry's relative order unchanged (`Flat = A ++ descendants ++ B` becomes
`A ++ B`), and toggling the expanded flag twice is the identity on the
flattened view. -/
theorem toggle_flat_spec (cs : List ContainerInfo) (e : String → Bool)
    (p : String) (hp : p ∈ projNames cs) :
    (ToggleProject (ToggleProject (withExpansion (BuildTree cs) e) p) p).flat =
      (withExpansion (BuildTree cs) e).flat ∧
    (e p = true → ∃ A B,
      (withExpansion (BuildTree cs) e).flat = A ++ ctrEntries cs p ++ B ∧
      (ToggleProject (withExpansion (BuildTree cs) e) p).flat = A ++ B) := by
  have hroot : (withExpansion (BuildTree cs) e).root =
      applyExpanded e (BuildTree cs).root := by
    simp [withExpansion, UpdateFlatView]
  constructor
  · -- double toggle: pointwise the flags return to `e`
    have hr1 : (ToggleProject (withExpansion (BuildTree cs) e) p).root =
        toggleChildExpanded p (applyExpanded e (BuildTree cs).root) := by
      simp [ToggleProject, UpdateFlatView, hroot]
    have h2 : (ToggleProject (ToggleProject (withExpansion (BuildTree cs) e) p) p).flat =
        flattenNode [] (toggleChildExpanded p
          ((ToggleProject (withExpansion (BuildTree cs) e) p).root)) := by
      simp [ToggleProject, UpdateFlatView]
    rw [h2, hr1, toggle_applyExpanded, toggle_applyExpanded,
      applyExpanded_buildRoot, flatten_projRoot, flat_withExpansion]
    refine blocks_congr cs (projNames cs) (fun q _ => ?_)
    by_cases hq : q = p <;> simp [hq]
  · intro he
    obtain ⟨l1, l2, hsplit, hnl1, hnl2⟩ :=
      nodup_split hp (projNames_sorted_nodup cs).1
    refine ⟨((l1.map (projBlock cs e)).flatten) ++
        (if p = "root" then [] else [projEntry p]),
      (l2.map (projBlock cs e)).flatten, ?_, ?_⟩
    · rw [flat_withExpansion, hsplit]
      simp only [List.map_append, List.map_cons, List.flatten_append,
        List.flatten_cons]
      rw [projBlock, he]
      simp
    · have h1 : (ToggleProject (withExpansion (BuildTree cs) e) p).flat =
          ((projNames cs).map (projBlock cs
            (fun q => if q = p then !e q else e q))).flatten :=
        flat_toggleProject cs e p
      rw [h1, hsplit]
      simp only [List.map_append, List.map_cons, List.flatten_append,
        List.flatten_cons]
      have hbl1 : (l1.map (projBlock cs (fun q => if q = p then !e q else e q))).flatten =
          (l1.map (projBlock cs e)).flatten :=
        blocks_congr cs l1 (fun q hq => by
          have hne : q ≠ p := fun h => hnl1 (h ▸ hq)
          simp [hne])
      have hbl2 : (l2.map (projBlock cs (fun q => if q = p then !e q else e q))).flatten =
          (l2.map (projBlock cs e)).flatten :=
        blocks_congr cs l2 (fun q hq => by
          have hne : q ≠ p := fun h => hnl2 (h ▸ hq)
          simp [hne])
      have hbp : projBlock cs (fun q => if q = p then !e q else e q) p =
          (if p = "root" then [] else [projEntry p]) := by
        simp [projBlock, he]
      rw [hbl1, hbl2, hbp]
      simp

/-- Witness for C8: in the two-project tree built from `["a_x","b_y"]` with
all projects expanded, collapsing `"a"` removes exactly its container entry
and double-toggle restores the flat view. -/
theorem toggle_flat_spec_witness :
    "a" ∈ projNames [mkC "a_x", mkC "b_y"] ∧
    ((ToggleProject (ToggleProject
        (withExpansion (BuildTree [mkC "a_x", mkC "b_y"]) (fun _ => true)) "a") "a").flat =
      (withExpansion (BuildTree [mkC "a_x", mkC "b_y"]) (fun _ => true)).flat ∧
    ((fun _ => true) "a" = true → ∃ A B,
      (withExpansion (BuildTree [mkC "a_x", mkC "b_y"]) (fun _ => true)).flat =
        A ++ ctrEntries [mkC "a_x", mkC "b_y"] "a" ++ B ∧
      (ToggleProject (withExpansion
        (BuildTree [mkC "a_x", mkC "b_y"]) (fun _ => true)) "a").flat = A ++ B)) :=
  ⟨by decide, toggle_flat_spec [mkC "a_x", mkC "b_y"] (fun _ => true) "a" (by decide)⟩

/-- Count of a project's own flat entry inside one block. -/
theorem count_projEntry_block (cs : List ContainerInfo) (e : String → Bool)
    (q p : String) (hq : q ≠ "root") :
    (projBlock cs e p).count (projEntry q) = if p = q then 1 else 0 := by
  have hctr0 : (ctrEntries cs p).count (projEntry q) = 0 := by
    refine List.count_eq_zero.mpr ?_
    intro hmem
    rw [ctrEntries, List.mem_map] at hmem
    obtain ⟨d, _, hd⟩ := hmem
    exact absurd (congrArg FlatNode.type hd) (by simp [projEntry])
  have hctr : (if e p then ctrEntries cs p else []).count (projEntry q) = 0 := by
    cases e p <;> simp [hctr0]
  rw [projBlock, List.count_append, hctr]
  by_cases hp : p = "root"
  · subst hp
    simp [Ne.symm hq]
  · simp only [if_neg hp]
    by_cases hpq : p = q
    · subst hpq
      simp
    · simp only [if_neg hpq, Nat.add_zero]
      have hne : projEntry q ≠ projEntry p := by
        intro h
        exact hpq ((congrArg FlatNode.name h).symm)
      have hne' := Ne.symm hne
      rw [List.count_singleton']
      simp [hne']

/-- A project's own entry occurs exactly once in the flat view of a rebuilt
tree. -/
theorem count_projEntry_blocks (cs : List ContainerInfo) (e : String → Bool)
    (q : String) (hq : q ≠ "root") :
    ∀ ps : List String, ps.Nodup → q ∈ ps →
      ((ps.map (projBlock cs e)).flatten).count (projEntry q) = 1 := by
  intro ps
  induction ps with
  | nil => intro _ h; cases h
  | cons p rest ih =>
    intro hnd hmem
    rw [List.map_cons, List.flatten_cons, List.count_append,
      count_projEntry_block cs e q p hq]
    by_cases hpq : p = q
    · subst hpq
      have hrest : ((rest.map (projBlock cs e)).flatten).count (projEntry p) = 0 := by
        rw [List.count_eq_zero]
        intro hmem2
        rw [List.mem_flatten] at hmem2
        obtain ⟨bl, hbl, hin⟩ := hmem2
        rw [List.mem_map] at hbl
        obtain ⟨r, hr, rfl⟩ := hbl
        have hcount := count_projEntry_block cs e p r hq
        by_cases hrp : r = p
        · exact (List.nodup_cons.mp hnd).1 (hrp ▸ hr)
        · rw [if_neg hrp, List.count_eq_zero] at hcount
          exact hcount hin
      rw [hrest]
      simp
    · have hmem2 : q ∈ rest := by
        rcases List.mem_cons.mp hmem with h | h
        · exact absurd h.symm hpq
        · exact h
      rw [ih (List.nodup_cons.mp hnd).2 hmem2]
      simp [hpq]

set_option linter.unnecessarySeqFocus false in
/-- Length of the flat view as a sum over project names. -/
theorem blocks_length (cs : List ContainerInfo) (e : String → Bool) :
    ∀ ps : List String,
      ((ps.map (projBlock cs e)).flatten).length =
        (ps.filter (fun p => p ≠ "root")).length +
          (ps.map (fun p => if e p then (projCtrs cs p).length else 0)).sum := by
  intro ps
  induction ps with
  | nil => rfl
  | cons p rest ih =>
    rw [List.map_cons, List.flatten_cons, List.length_append, ih]
    have hblock : (projBlock cs e p).length =
        (if p = "root" then 0 else 1) + (if e p then (projCtrs cs p).length else 0) := by
      rw [projBlock, List.length_append]
      congr 1
      · by_cases hp : p = "root" <;> simp [hp]
      · cases e p <;> simp [ctrEntries]
    rw [hblock]
    by_cases hp : p = "root"
    · subst hp
      cases hb : e "root" <;> simp [hb, List.filter_cons] <;> try omega
    · cases hb : e p <;> (simp [hp, hb, List.filter_cons]; omega)

/-- A container entry of a collapsed project appears in no block. -/
theorem ctrEntry_not_mem_blocks (cs : List ContainerInfo) (e : String → Bool)
    (pn nm : String) (co : Option ContainerInfo) (hc : e pn = false) :
    ∀ ps : List String,
      (⟨NodeType.container, nm, co, [nm, pn, "root"]⟩ : FlatNode) ∉
        (ps.map (projBlock cs e)).flatten := by
  intro ps hmem
  rw [List.mem_flatten] at hmem
  obtain ⟨bl, hbl, hin⟩ := hmem
  rw [List.mem_map] at hbl
  obtain ⟨q, _, rfl⟩ := hbl
  rw [projBlock, List.mem_append] at hin
  rcases hin with hin | hin
  · by_cases hq : q = "root"
    · simp [hq] at hin
    · simp only [if_neg hq, List.mem_singleton] at hin
      exact absurd (congrArg FlatNode.type hin) (by simp [projEntry])
  · cases hb : e q
    · rw [hb] at hin
      simp at hin
    · have hin' : (⟨NodeType.container, nm, co, [nm, pn, "root"]⟩ : FlatNode) ∈
          ctrEntries cs q := by
        simpa [hb] using hin
      rw [ctrEntries, List.mem_map] at hin'
      obtain ⟨d, _, hd⟩ := hin'
      have hanc := congrArg FlatNode.anc hd
      simp only at hanc
      have hqpn : q = pn := by
        injection hanc with h1 h2
        injection h2 with h3 h4
      rw [hqpn] at hb
      rw [hb] at hc
      cases hc

/-- C1 (counterexample): for the container list `["root"]`, the flattened view
does contain a node named `"root"` (the container itself), and its length (1)
differs from the number of project nodes (1) plus the number of container
nodes in expanded projects (1): `flattenNode` suppresses any *project* whose
name is `"root"`, not just the synthetic root, while emitting the container. -/
theorem flat_root_counterexample :
    "root" ∈ (BuildTree [mkC "root"]).flat.map FlatNode.name ∧
    (BuildTree [mkC "root"]).flat.length ≠
      numProjects (BuildTree [mkC "root"]) +
        numContainersInExpanded (BuildTree [mkC "root"]) :=
  ⟨by decide, by decide⟩

/-- C1 (amended): after a rebuild with any expansion flags — covering a plain
build, where the two flat views coincide, and any toggles — the flattened view
contains no *project* node named `"root"`; its length equals the number of
project nodes *not named* `"root"` plus the number of container nodes whose
parent project is expanded; and a collapsed project not named `"root"`
contributes exactly one entry (itself) and none of its descendants. -/
theorem flat_view_spec (cs : List ContainerInfo) (e : String → Bool) :
    (∀ n ∈ (withExpansion (BuildTree cs) e).flat,
      n.type = NodeType.project → n.name ≠ "root") ∧
    (withExpansion (BuildTree cs) e).flat.length =
      ((withExpansion (BuildTree cs) e).root.children.filter
        (fun p => p.name ≠ "root")).length +
        numContainersInExpanded (withExpansion (BuildTree cs) e) ∧
    (BuildTree cs).flat = (withExpansion (BuildTree cs) (fun _ => true)).flat ∧
    (∀ p ∈ (withExpansion (BuildTree cs) e).root.children,
      p.expanded = false → p.name ≠ "root" →
        (withExpansion (BuildTree cs) e).flat.count (projEntry p.name) = 1 ∧
        ∀ c ∈ p.children,
          (⟨NodeType.container, c.name, c.container, [c.name, p.name, "root"]⟩ :
            FlatNode) ∉ (withExpansion (BuildTree cs) e).flat) := by
  refine ⟨?_, ?_, ?_, ?_⟩
  · intro n hn hty
    rw [flat_withExpansion, List.mem_flatten] at hn
    obtain ⟨bl, hbl, hin⟩ := hn
    rw [List.mem_map] at hbl
    obtain ⟨q, _, rfl⟩ := hbl
    rw [projBlock, List.mem_append] at hin
    rcases hin with hin | hin
    · by_cases hq : q = "root"
      · simp [hq] at hin
      · simp only [if_neg hq, List.mem_singleton] at hin
        rw [hin]
        exact hq
    · exfalso
      cases hb : e q
      · rw [hb] at hin
        simp at hin
      · have hin' : n ∈ ctrEntries cs q := by
          rw [hb] at hin
          simpa using hin
        rw [ctrEntries, List.mem_map] at hin'
        obtain ⟨d, _, hd⟩ := hin'
        have hdty := congrArg FlatNode.type hd
        rw [hty] at hdty
        exact absurd hdty (by simp)
  · rw [flat_withExpansion, blocks_length, rootChildren_withExpansion,
      numContainersInExpanded, rootChildren_withExpansion]
    congr 1
    · rw [List.filter_map, List.length_map]
      refine congrArg List.length (List.filter_congr ?_)
      intro q _
      simp [Function.comp, TreeNode.name]
    · rw [List.map_map]
      refine congrArg List.sum (List.map_congr_left ?_)
      intro q _
      simp only [Function.comp, TreeNode.expanded, TreeNode.children]
      cases e q <;> simp [ctrNodesOf]
  · rw [flat_buildTree, flat_withExpansion]
  · intro p hp hcol hname
    rw [rootChildren_withExpansion, List.mem_map] at hp
    obtain ⟨q, hq, rfl⟩ := hp
    simp only [TreeNode.name] at hname
    simp only [TreeNode.expanded] at hcol
    constructor
    · rw [flat_withExpansion, TreeNode.name]
      exact count_projEntry_blocks cs e q hname (projNames cs)
        (projNames_sorted_nodup cs).1 hq
    · intro c hc
      simp only [TreeNode.children, ctrNodesOf, List.mem_map] at hc
      obtain ⟨d, _, rfl⟩ := hc
      rw [flat_withExpansion]
      simp only [TreeNode.name, TreeNode.container]
      exact ctrEntry_not_mem_blocks cs e q d.name (some d) hcol (projNames cs)

/-- Witness for C1 (amended) on the list `["a_x","root"]` with project `"a"`
collapsed: the collapsed project `"a"` appears exactly once and its container
entry is absent. -/
theorem flat_view_spec_witness :
    (∀ n ∈ (withExpansion (BuildTree [mkC "a_x", mkC "root"])
        (fun q => q ≠ "a")).flat,
      n.type = NodeType.project → n.name ≠ "root") ∧
    (withExpansion (BuildTree [mkC "a_x", mkC "root"])
        (fun q => q ≠ "a")).flat.length =
      ((withExpansion (BuildTree [mkC "a_x", mkC "root"])
        (fun q => q ≠ "a")).root.children.filter
          (fun p => p.name ≠ "root")).length +
        numContainersInExpanded (withExpansion
          (BuildTree [mkC "a_x", mkC "root"]) (fun q => q ≠ "a")) ∧
    (BuildTree [mkC "a_x", mkC "root"]).flat =
      (withExpansion (BuildTree [mkC "a_x", mkC "root"]) (fun _ => true)).flat ∧
    (∀ p ∈ (withExpansion (BuildTree [mkC "a_x", mkC "root"])
        (fun q => q ≠ "a")).root.children,
      p.expanded = false → p.name ≠ "root" →
        ((withExpansion (BuildTree [mkC "a_x", mkC "root"])
          (fun q => q ≠ "a")).flat.count (projEntry p.name) = 1 ∧
        ∀ c ∈ p.children,
          (⟨NodeType.container, c.name, c.container, [c.name, p.name, "root"]⟩ :
            FlatNode) ∉ (withExpansion (BuildTree [mkC "a_x", mkC "root"])
              (fun q => q ≠ "a")).flat)) :=
  flat_view_spec [mkC "a_x", mkC "root"] (fun q => q ≠ "a")

/-- C7 (counterexample): for the tree built from `["a_b","root"]`, the flat
entry at index 2 (the container named `"root"`) has computed path `""`, yet
`RestoreSelection` with the empty path leaves the selection at 0 instead of
setting it to 2: the function returns early on an empty path without
scanning. -/
theorem restoreSelection_counterexample :
    (RestoreSelection (BuildTree [mkC "a_b", mkC "root"]) "").selected = 0 ∧
    (BuildTree [mkC "a_b", mkC "root"]).flat.findIdx?
      (fun n => GetNodePath n = "") = some 2 :=
  ⟨by decide, by decide⟩

/-- C7 (amended): for every tree and every *nonempty* path string, restoring
the selection scans the flattened view for the first node whose computed path
equals the argument and sets the selection index to that node's position if
found; if no node matches, the selection index is left untouched unless it is
at or past `len(Flat)`, in which case it is reset to 0; restoring with the
empty path leaves the tree unchanged. -/
theorem restoreSelection_spec (t : Tree) (path : String) (hne : path ≠ "") :
    (∀ i : Nat, (hi : i < t.flat.length) →
      GetNodePath (t.flat.get ⟨i, hi⟩) = path →
      (∀ j : Nat, (hj : j < t.flat.length) → j < i →
        GetNodePath (t.flat.get ⟨j, hj⟩) ≠ path) →
      (RestoreSelection t path).selected = (i : Int) ∧
        (RestoreSelection t path).root = t.root ∧
        (RestoreSelection t path).flat = t.flat) ∧
    ((∀ n ∈ t.flat, GetNodePath n ≠ path) →
      ((t.flat.length : Int) ≤ t.selected →
        (RestoreSelection t path).selected = 0 ∧
          (RestoreSelection t path).root = t.root ∧
          (RestoreSelection t path).flat = t.flat) ∧
      (t.selected < (t.flat.length : Int) → RestoreSelection t path = t)) ∧
    RestoreSelection t "" = t := by
  refine ⟨?_, ?_, by simp [RestoreSelection]⟩
  · intro i hi hieq hfirst
    have hfind : t.flat.findIdx? (fun n => GetNodePath n = path) = some i := by
      rw [List.findIdx?_eq_some_iff_getElem]
      refine ⟨hi, ?_, ?_⟩
      · simpa using hieq
      · intro j hj
        have := hfirst j (Nat.lt_trans hj hi) hj
        simpa using this
    rw [RestoreSelection, if_neg hne, hfind]
    exact ⟨rfl, rfl, rfl⟩
  · intro hnone
    have hfind : t.flat.findIdx? (fun n => GetNodePath n = path) = none := by
      rw [List.findIdx?_eq_none_iff]
      intro n hn
      simpa using hnone n hn
    constructor
    · intro hoob
      rw [RestoreSelection, if_neg hne, hfind, if_pos hoob]
      exact ⟨rfl, rfl, rfl⟩
    · intro hin
      rw [RestoreSelection, if_neg hne, hfind]
      rw [if_neg (by omega)]

/-- Witness for C7 at the tree built from `["a_b","root"]` and the nonempty
path `"a/a_b"`. -/
theorem restoreSelection_spec_witness :
    (∀ i : Nat, (hi : i < (BuildTree [mkC "a_b", mkC "root"]).flat.length) →
      GetNodePath ((BuildTree [mkC "a_b", mkC "root"]).flat.get ⟨i, hi⟩) = "a/a_b" →
      (∀ j : Nat, (hj : j < (BuildTree [mkC "a_b", mkC "root"]).flat.length) →
        j < i →
        GetNodePath ((BuildTree [mkC "a_b", mkC "root"]).flat.get ⟨j, hj⟩) ≠
          "a/a_b") →
      (RestoreSelection (BuildTree [mkC "a_b", mkC "root"]) "a/a_b").selected =
          (i : Int) ∧
        (RestoreSelection (BuildTree [mkC "a_b", mkC "root"]) "a/a_b").root =
          (BuildTree [mkC "a_b", mkC "root"]).root ∧
        (RestoreSelection (BuildTree [mkC "a_b", mkC "root"]) "a/a_b").flat =
          (BuildTree [mkC "a_b", mkC "root"]).flat) ∧
    ((∀ n ∈ (BuildTree [mkC "a_b", mkC "root"]).flat,
        GetNodePath n ≠ "a/a_b") →
      (((BuildTree [mkC "a_b", mkC "root"]).flat.length : Int) ≤
          (BuildTree [mkC "a_b", mkC "root"]).selected →
        (RestoreSelection (BuildTree [mkC "a_b", mkC "root"]) "a/a_b").selected = 0 ∧
          (RestoreSelection (BuildTree [mkC "a_b", mkC "root"]) "a/a_b").root =
            (BuildTree [mkC "a_b", mkC "root"]).root ∧
          (RestoreSelection (BuildTree [mkC "a_b", mkC "root"]) "a/a_b").flat =
            (BuildTree [mkC "a_b", mkC "root"]).flat) ∧
      ((BuildTree [mkC "a_b", mkC "root"]).selected <
          ((BuildTree [mkC "a_b", mkC "root"]).flat.length : Int) →
        RestoreSelection (BuildTree [mkC "a_b", mkC "root"]) "a/a_b" =
          BuildTree [mkC "a_b", mkC "root"])) ∧
    RestoreSelection (BuildTree [mkC "a_b", mkC "root"]) "" =
      BuildTree [mkC "a_b", mkC "root"] :=
  restoreSelection_spec (BuildTree [mkC "a_b", mkC "root"]) "a/a_b" (by decide)

/-- The navigation state of the interactive model (part_002): the tree's
selection index `Tree.Selected` paired with the viewport offset
`Model.viewportTop`; both Go `int`s. The flat length `n` and the terminal
height `m.height` stay fixed along a pure navigation sequence (no rebuild). -/
structure ViewState where
  selected : Int
  top : Int
deriving DecidableEq, Repr

/-- `Tree.MoveUp` (model/tree.go:144-148) acting on the selection. -/
def moveUpV (s : ViewState) : ViewState :=
  if 0 < s.selected then { s with selected := s.selected - 1 } else s

/-- `Tree.MoveDown` (model/tree.go:151-155) acting on the selection; `n` is
`len(t.Flat)`. -/
def moveDownV (n : Nat) (s : ViewState) : ViewState :=
  if s.selected < (n : Int) - 1 then { s with selected := s.selected + 1 } else s

/-- The visible height computed by `adjustViewport` (part_002:485-488):
`m.height - 5`, floored at 1. -/
def visibleHeight (mHeight : Int) : Int :=
  if mHeight - 5 < 1 then 1 else mHeight - 5

/-- `Model.adjustViewport` (part_002:478-506): no-op when the flat view is
empty; otherwise scroll down, scroll up, clamp at zero — in that order. -/
def adjustViewport (n : Nat) (mHeight : Int) (s : ViewState) : ViewState :=
  if n = 0 then s
  else
    let h := visibleHeight mHeight
    let t1 := if s.top + h ≤ s.selected then s.selected - h + 1 else s.top
    let t2 := if s.selected < t1 then s.selected else t1
    let t3 := if t2 < 0 then 0 else t2
    { s with top := t3 }

/-- One navigation event: up, down, or a viewport adjustment. -/
inductive NavOp where
  | up
  | down
  | adjust
deriving DecidableEq, Repr

/-- Step function over navigation events (the `up`/`down` key handlers call
`MoveUp`/`MoveDown`; `adjustViewport` runs after navigation and on
resize/refresh). -/
def navStep (n : Nat) (mHeight : Int) : NavOp → ViewState → ViewState
  | NavOp.up, s => moveUpV s
  | NavOp.down, s => moveDownV n s
  | NavOp.adjust, s => adjustViewport n mHeight s

/-- Every state reached right after an `adjust` event in the trace satisfies
the viewport contract. -/
def goodTrace (n : Nat) (mHeight : Int) : List NavOp → ViewState → Prop
  | [], _ => True
  | op :: rest, s =>
    (op = NavOp.adjust →
      0 ≤ (navStep n mHeight op s).top ∧
      (navStep n mHeight op s).top ≤ (navStep n mHeight op s).selected ∧
      (navStep n mHeight op s).selected <
        (navStep n mHeight op s).top + visibleHeight mHeight) ∧
    goodTrace n mHeight rest (navStep n mHeight op s)

theorem selectedOfMk (a b : Int) : (ViewState.mk a b).selected = a := rfl

theorem topOfMk (a b : Int) : (ViewState.mk a b).top = b := rfl

/-- The visible height is at least one row. -/
theorem visibleHeight_pos (mHeight : Int) : 1 ≤ visibleHeight mHeight := by
  rw [visibleHeight]
  split <;> omega

set_option linter.unusedVariables false in
/-- Adjustment establishes the viewport contract whenever the selection is in
range (the upper bound is not even needed). -/
theorem adjustViewport_contract (n : Nat) (mHeight : Int) (s : ViewState)
    (hn : 0 < n) (h0 : 0 ≤ s.selected) (h1 : s.selected < (n : Int)) :
    0 ≤ (adjustViewport n mHeight s).top ∧
    (adjustViewport n mHeight s).top ≤ (adjustViewport n mHeight s).selected ∧
    (adjustViewport n mHeight s).selected <
      (adjustViewport n mHeight s).top + visibleHeight mHeight := by
  have hh := visibleHeight_pos mHeight
  rw [adjustViewport, if_neg (by omega)]
  simp only
  split <;> split <;> split <;> omega

set_option linter.unusedVariables false in
/-- Navigation steps keep the selection inside `[0, n-1]`. -/
theorem navStep_range (n : Nat) (mHeight : Int) (op : NavOp) (s : ViewState)
    (hn : 0 < n) (h0 : 0 ≤ s.selected) (h1 : s.selected < (n : Int)) :
    0 ≤ (navStep n mHeight op s).selected ∧
    (navStep n mHeight op s).selected < (n : Int) := by
  cases op
  · rw [navStep, moveUpV]
    split
    · simp only [selectedOfMk]
      omega
    · exact ⟨h0, h1⟩
  · rw [navStep, moveDownV]
    split
    · simp only [selectedOfMk]
      omega
    · exact ⟨h0, h1⟩
  · rw [navStep, adjustViewport]
    split
    · exact ⟨h0, h1⟩
    · simp only
      exact ⟨h0, h1⟩

/-- C3: for every non-empty flattened view, every terminal height, every
starting state with an in-range selection, and every finite sequence of
moveUp/moveDown/viewport-adjust events, each adjustment re-establishes
`0 ≤ top ≤ selected < top + visibleHeight`; moreover with an empty flattened
view the adjustment leaves the state unchanged, and moveUp/moveDown are no-ops
in the states reachable there (selection 0). -/
theorem viewport_invariant (n : Nat) (mHeight : Int) (ops : List NavOp)
    (s : ViewState) (hn : 0 < n) (h0 : 0 ≤ s.selected)
    (h1 : s.selected < (n : Int)) :
    goodTrace n mHeight ops s ∧
    (∀ u : ViewState, adjustViewport 0 mHeight u = u) ∧
    (∀ u : ViewState, u.selected = 0 → moveUpV u = u ∧ moveDownV 0 u = u) := by
  refine ⟨?_, fun u => by rw [adjustViewport, if_pos rfl], fun u hu => ?_⟩
  · induction ops generalizing s with
    | nil => trivial
    | cons op rest ih =>
      refine ⟨?_, ?_⟩
      · intro hop
        subst hop
        exact adjustViewport_contract n mHeight s hn h0 h1
      · obtain ⟨hr0, hr1⟩ := navStep_range n mHeight op s hn h0 h1
        exact ih _ hr0 hr1
  · constructor
    · rw [moveUpV, if_neg (by omega)]
    · rw [moveDownV, if_neg (by simp; omega)]

/-- Witness for C3: a three-element flat view, height 7, starting at the
origin, with a down-down-adjust-up-adjust trace. -/
theorem viewport_invariant_witness :
    goodTrace 3 7 [NavOp.down, NavOp.down, NavOp.adjust, NavOp.up, NavOp.adjust]
      ⟨0, 0⟩ ∧
    (∀ u : ViewState, adjustViewport 0 7 u = u) ∧
    (∀ u : ViewState, u.selected = 0 → moveUpV u = u ∧ moveDownV 0 u = u) :=
  viewport_invariant 3 7 [NavOp.down, NavOp.down, NavOp.adjust, NavOp.up,
    NavOp.adjust] ⟨0, 0⟩ (by decide) (by decide) (by decide)

/-- Go `uint64` subtraction `a - b`: wraps modulo `2^64` (for `a, b < 2^64`).
This happens *before* the `float64` conversion in `getContainerStats`
(docker/client.go:177-178). -/
def u64sub (a b : Nat) : Nat := (a + 2 ^ 64 - b) % 2 ^ 64

/-- The fields of the Docker stats JSON the code reads
(docker/client.go:128-150): cumulative CPU/system counters (`uint64`), online
CPU count (`uint32`), memory usage/limit (`uint64`), and per-interface
received/transmitted byte counters. -/
structure StatsResponse where
  cpuTotalUsage : Nat
  systemCpuUsage : Nat
  onlineCPUs : Nat
  precpuTotalUsage : Nat
  precpuSystemUsage : Nat
  memUsage : Nat
  memLimit : Nat
  networks : List (String × Nat × Nat)
deriving DecidableEq, Repr

/-- `docker.statsData` (docker/client.go:152-158); the two `float64` percent
fields are modelled over `ℚ`. -/
structure StatsData where
  cpuPerc : ℚ
  memPerc : ℚ
  memUsage : String
  netRx : Nat
  netTx : Nat
deriving DecidableEq, Repr

/-- The `for n := bytes / unit; n >= unit; n /= unit` loop of `formatBytes`
(docker/client.go:207-211), with explicit fuel (the loop runs at most six
times for `uint64` inputs; fuel 64 is ample). -/
def formatLoop (fuel n div exp : Nat) : Nat × Nat :=
  match fuel with
  | 0 => (div, exp)
  | fuel + 1 =>
    if 1024 ≤ n then formatLoop fuel (n / 1024) (div * 1024) (exp + 1)
    else (div, exp)

/-- One-decimal rendering of `num / den`, modelling `Sprintf "%.1f"` as the
decimal expansion of the exact rational rounded half-up (Go rounds the
`float64` quotient half-to-even; no claim depends on this string). -/
def oneDecimal (num den : Nat) : String :=
  let t := (10 * num + den / 2) / den
  toString (t / 10) ++ "." ++ toString (t % 10)

/-- `docker.formatBytes` (docker/client.go:202-213). -/
def formatBytes (bytes : Nat) : String :=
  if bytes < 1024 then "0 B"
  else
    let de := formatLoop 64 (bytes / 1024) 1024 0
    oneDecimal bytes de.1 ++ " " ++
      String.mk [['K', 'M', 'G', 'T', 'P', 'E'].getD de.2 'E'] ++ "iB"

/-- The pure metric derivation of `getContainerStats`
(docker/client.go:174-199) from a decoded stats response. The Go code
subtracts the `uint64` counters first (wrapping) and only then converts to
`float64`; `float64` arithmetic is modelled exactly over `ℚ` (the rounding on
counters above `2^53` preserves sign and zero-ness, which is all the
comparisons use). -/
def computeStats (v : StatsResponse) : StatsData :=
  let cpuDelta : ℚ := (u64sub v.cpuTotalUsage v.precpuTotalUsage : Nat)
  let systemDelta : ℚ := (u64sub v.systemCpuUsage v.precpuSystemUsage : Nat)
  let onlineCPUs : ℚ := (v.onlineCPUs : ℚ)
  { cpuPerc :=
      if 0 < systemDelta ∧ 0 < cpuDelta then cpuDelta / systemDelta * onlineCPUs * 100
      else 0,
    memPerc :=
      if 0 < v.memLimit then (v.memUsage : ℚ) / (v.memLimit : ℚ) * 100 else 0,
    memUsage := formatBytes v.memUsage ++ " / " ++ formatBytes v.memLimit,
    netRx := (v.networks.map (fun x => x.2.1)).sum,
    netTx := (v.networks.map (fun x => x.2.2)).sum }

/-- C2: the positive parts hold — `cpuDelta=40, systemDelta=100, onlineCpus=2`
gives `80`, `systemDelta=0` gives `0` with no division, and the result is
never negative — but the claim that a current total below the previous one
(`cpuDelta < 0`) yields `0` FAILS: the deltas are computed by `uint64`
subtraction, which wraps to a huge positive value instead of going negative,
so a counter reset (here 50 → 10 with systemDelta 100, 2 CPUs) produces
`36893488147419103152`, not `0`. -/
theorem cpuPercent_code_bug :
    (computeStats ⟨40, 100, 2, 0, 0, 0, 0, []⟩).cpuPerc = 80 ∧
    (computeStats ⟨40, 100, 2, 0, 100, 0, 0, []⟩).cpuPerc = 0 ∧
    (computeStats ⟨10, 200, 2, 50, 100, 0, 0, []⟩).cpuPerc =
      36893488147419103152 ∧
    (36893488147419103152 : ℚ) ≠ 0 ∧
    ∀ v : StatsResponse, 0 ≤ (computeStats v).cpuPerc := by
  refine ⟨by norm_num [computeStats, u64sub], by norm_num [computeStats, u64sub],
    by norm_num [computeStats, u64sub], by norm_num, fun v => ?_⟩
  rw [computeStats]
  simp only
  split
  · have h1 : (0 : ℚ) ≤ (u64sub v.cpuTotalUsage v.precpuTotalUsage : Nat) :=
      Nat.cast_nonneg _
    have h2 : (0 : ℚ) ≤ (u64sub v.systemCpuUsage v.precpuSystemUsage : Nat) :=
      Nat.cast_nonneg _
    have h3 : (0 : ℚ) ≤ (v.onlineCPUs : ℚ) := Nat.cast_nonneg _
    have := div_nonneg h1 h2
    positivity
  · exact le_refl 0

/-- A container summary as returned by the runtime's list endpoint
(`ContainerList`), with the fields docker/client.go reads: `ID`, `Names`,
`Image`, `State`, `Status`, `Created`, `Labels`. -/
structure RuntimeCtr where
  id : String
  names : List String
  image : String
  state : String
  status : String
  created : Int
  labels : List (String × String)
deriving DecidableEq, Repr

/-- `strings.TrimPrefix(name, "/")` (docker/client.go:79). -/
def dropLeadSlash (s : String) : String :=
  if s.startsWith "/" then s.drop 1 else s

/-- The record built before stats arrive (docker/client.go:81-94): truncated
id (`ctr.ID[:12]`, byte slice = character slice on hex ids), first name with
the leading slash removed (`ctr.Names[0]`; Go would panic on an empty `Names`,
modelled as the empty string), placeholder metrics. -/
def initRecord (c : RuntimeCtr) : ContainerInfo :=
  { id := String.mk (c.id.toList.take 12),
    name := dropLeadSlash (c.names.headD ""),
    image := c.image, state := c.state, status := c.status,
    cpuPerc := 0, memPerc := 0, memUsage := "N/A", netRx := 0, netTx := 0,
    createdAt := c.created, labels := c.labels }

/-- `getContainerStats` (docker/client.go:160-199) as a function of the
sampling outcome: `none` models an I/O error from `ContainerStats` or a JSON
decode error — both return the zero/placeholder data — and `some v` a decoded
response, from which the metrics are computed. -/
def getStats (resp : Option StatsResponse) : StatsData :=
  match resp with
  | none => ⟨0, 0, "N/A", 0, 0⟩
  | some v => computeStats v

/-- Merging one stats result into a record (docker/client.go:116-120): only
the five metric fields change. -/
def applyStats (r : ContainerInfo) (d : StatsData) : ContainerInfo :=
  { r with
    cpuPerc := d.cpuPerc
    memPerc := d.memPerc
    memUsage := d.memUsage
    netRx := d.netRx
    netTx := d.netTx }

/-- The fan-in loop (docker/client.go:113-122): receive the results in the
order the channel delivers them — an arbitrary interleaving, modelled by the
`results` list — and write each into the record at its original index. -/
def mergeStats (base : List ContainerInfo) (results : List (Nat × StatsData)) :
    List ContainerInfo :=
  results.foldl (fun acc r =>
    match acc.get? r.1 with
    | some rc => acc.set r.1 (applyStats rc r.2)
    | none => acc) base

/-- The indices at which sampling tasks are dispatched
(docker/client.go:96-109): the positions of the running containers, in list
order. -/
def runningIndices (ctrs : List RuntimeCtr) : List Nat :=
  (ctrs.enum.filter (fun ic => ic.2.state = "running")).map Prod.fst

/-- `Client.ListContainersWithStats` (docker/client.go:57-125) given the list
the runtime returned: build placeholder records; when stats are requested,
sample each running container through `oracle` and merge the results in
channel-delivery order `order` (a permutation of the dispatched indices —
fan-in waits for exactly as many results as tasks dispatched). -/
def ListContainersWithStats (ctrs : List RuntimeCtr) (includeStats : Bool)
    (oracle : Nat → Option StatsResponse) (order : List Nat) :
    List ContainerInfo :=
  let base := ctrs.map initRecord
  if includeStats then
    mergeStats base (order.map (fun i => (i, getStats (oracle i))))
  else base

theorem get?_set_self_map {α : Type} (l : List α) (i : Nat) (a : α) :
    (l.set i a).get? i = (l.get? i).map (fun _ => a) := by
  rw [List.get?_eq_getElem?, List.get?_eq_getElem?, List.getElem?_set_self']
  cases l[i]? <;> rfl

theorem get?_set_ne' {α : Type} (l : List α) (i j : Nat) (a : α) (h : i ≠ j) :
    (l.set i a).get? j = l.get? j := by
  rw [List.get?_eq_getElem?, List.get?_eq_getElem?]
  exact List.getElem?_set_ne h

/-- The write one merge step performs. -/
def mergeWrite (base : List ContainerInfo) (r : Nat × StatsData) :
    List ContainerInfo :=
  match base.get? r.1 with
  | some rc => base.set r.1 (applyStats rc r.2)
  | none => base

theorem mergeStats_cons (base : List ContainerInfo) (r : Nat × StatsData)
    (rest : List (Nat × StatsData)) :
    mergeStats base (r :: rest) = mergeStats (mergeWrite base r) rest := rfl

/-- One merge step, described through `get?`. -/
theorem mergeWrite_get? (base : List ContainerInfo) (r : Nat × StatsData)
    (j : Nat) :
    (mergeWrite base r).get? j =
      if j = r.1 then (base.get? j).map (fun rc => applyStats rc r.2)
      else base.get? j := by
  by_cases hj : j = r.1
  · subst hj
    rw [if_pos rfl, mergeWrite]
    cases hb : base.get? r.1 with
    | none => exact hb
    | some rc =>
      show (base.set r.1 (applyStats rc r.2)).get? r.1 =
        Option.map (fun x => applyStats x r.2) (some rc)
      rw [get?_set_self_map, hb]
      rfl
  · rw [if_neg hj, mergeWrite]
    cases hb : base.get? r.1 with
    | none => rfl
    | some rc =>
      show (base.set r.1 (applyStats rc r.2)).get? j = base.get? j
      exact get?_set_ne' base r.1 j _ (fun h => hj h.symm)

/-- Indices untouched by any result keep their record. -/
theorem mergeStats_get?_not_mem :
    ∀ (rs : List (Nat × StatsData)) (base : List ContainerInfo) (j : Nat),
      j ∉ rs.map Prod.fst → (mergeStats base rs).get? j = base.get? j := by
  intro rs
  induction rs with
  | nil => intro base j _; rfl
  | cons r rest ih =>
    intro base j hj
    rw [List.map_cons] at hj
    have hj1 : j ≠ r.1 := fun h => hj (h ▸ List.mem_cons_self _ _)
    have hj2 : j ∉ rest.map Prod.fst := fun h => hj (List.mem_cons_of_mem _ h)
    rw [mergeStats_cons, ih _ j hj2, mergeWrite_get?, if_neg hj1]

/-- With pairwise-distinct indices, the record at a dispatched index receives
exactly its own result, whatever the delivery order. -/
theorem mergeStats_get?_mem :
    ∀ (rs : List (Nat × StatsData)) (base : List ContainerInfo) (j : Nat)
      (d : StatsData), (rs.map Prod.fst).Nodup → (j, d) ∈ rs →
      (mergeStats base rs).get? j = (base.get? j).map (fun rc => applyStats rc d) := by
  intro rs
  induction rs with
  | nil => intro base j d _ h; cases h
  | cons r rest ih =>
    intro base j d hnd hmem
    rw [List.map_cons, List.nodup_cons] at hnd
    rw [mergeStats_cons]
    rcases List.mem_cons.mp hmem with heq | hmem2
    · have hj : j = r.1 := congrArg Prod.fst heq
      have hd : d = r.2 := congrArg Prod.snd heq
      have hnotin : j ∉ rest.map Prod.fst := by
        rw [hj]
        exact hnd.1
      rw [mergeStats_get?_not_mem rest _ j hnotin, mergeWrite_get?, if_pos hj, hd]
    · have hj1 : j ≠ r.1 := by
        intro h
        exact hnd.1 (h ▸ List.mem_map_of_mem Prod.fst hmem2)
      rw [ih _ j d hnd.2 hmem2, mergeWrite_get?, if_neg hj1]

/-- Merging never changes the number of records. -/
theorem mergeStats_length :
    ∀ (rs : List (Nat × StatsData)) (base : List ContainerInfo),
      (mergeStats base rs).length = base.length := by
  intro rs
  induction rs with
  | nil => intro base; rfl
  | cons r rest ih =>
    intro base
    rw [mergeStats_cons, ih]
    rw [mergeWrite]
    cases base.get? r.1
    · rfl
    · exact List.length_set _ _ _

/-- The dispatched indices are pairwise distinct. -/
theorem runningIndices_nodup (ctrs : List RuntimeCtr) :
    (runningIndices ctrs).Nodup := by
  have hsub : ((ctrs.enum.filter (fun ic => ic.2.state = "running")).map
      Prod.fst).Sublist (ctrs.enum.map Prod.fst) :=
    (List.filter_sublist _).map Prod.fst
  rw [List.enum_map_fst] at hsub
  exact hsub.nodup (List.nodup_range _)

/-- An index is dispatched exactly when its container is running. -/
theorem mem_runningIndices (ctrs : List RuntimeCtr) (i : Nat) :
    i ∈ runningIndices ctrs ↔
      ∃ h : i < ctrs.length, (ctrs.get ⟨i, h⟩).state = "running" := by
  rw [runningIndices]
  constructor
  · intro hmem
    rw [List.mem_map] at hmem
    obtain ⟨ic, hic, rfl⟩ := hmem
    rw [List.mem_filter] at hic
    obtain ⟨henum, hstate⟩ := hic
    have hget := (List.mem_enum_iff_get? (x := ic) (l := ctrs)).mp henum
    have hlt : ic.1 < ctrs.length := List.get?_eq_some.mp hget |>.1
    refine ⟨hlt, ?_⟩
    have : ctrs.get ⟨ic.1, hlt⟩ = ic.2 := by
      have := List.get?_eq_get hlt
      rw [this] at hget
      injection hget
    rw [this]
    simpa using hstate
  · intro ⟨h, hstate⟩
    rw [List.mem_map]
    refine ⟨(i, ctrs.get ⟨i, h⟩), ?_, rfl⟩
    rw [List.mem_filter]
    constructor
    · rw [List.mem_enum_iff_get?]
      exact List.get?_eq_get h
    · simpa using hstate

/-- C6: with stats requested, the merged record list has one record per
container at its original index; whatever order the sampling tasks complete
in (any permutation of the dispatched indices), the result is the same; a
running container's record carries the metrics computed from its own sample —
the zero/placeholder metrics `(0, 0, "N/A", 0, 0)` when its sampling failed —
and a non-running container keeps the placeholder record; no record is
dropped or reordered. -/
theorem listWithStats_spec (ctrs : List RuntimeCtr)
    (oracle : Nat → Option StatsResponse) (order : List Nat)
    (hperm : order.Perm (runningIndices ctrs)) :
    ListContainersWithStats ctrs true oracle order =
      ListContainersWithStats ctrs true oracle (runningIndices ctrs) ∧
    (ListContainersWithStats ctrs true oracle order).length = ctrs.length ∧
    (∀ i : Nat, (hi : i < ctrs.length) →
      (ListContainersWithStats ctrs true oracle order).get? i =
        some (if (ctrs.get ⟨i, hi⟩).state = "running"
          then applyStats (initRecord (ctrs.get ⟨i, hi⟩)) (getStats (oracle i))
          else initRecord (ctrs.get ⟨i, hi⟩))) ∧
    getStats none = ⟨0, 0, "N/A", 0, 0⟩ := by
  have hlen : ∀ ord : List Nat,
      (ListContainersWithStats ctrs true oracle ord).length = ctrs.length := by
    intro ord
    show (mergeStats (ctrs.map initRecord)
        (ord.map (fun k => (k, getStats (oracle k))))).length = ctrs.length
    rw [mergeStats_length, List.length_map]
  have hchar : ∀ ord : List Nat, ord.Perm (runningIndices ctrs) →
      ∀ i : Nat, (hi : i < ctrs.length) →
        (ListContainersWithStats ctrs true oracle ord).get? i =
          some (if (ctrs.get ⟨i, hi⟩).state = "running"
            then applyStats (initRecord (ctrs.get ⟨i, hi⟩)) (getStats (oracle i))
            else initRecord (ctrs.get ⟨i, hi⟩)) := by
    intro ord hp i hi
    have hbase : (ctrs.map initRecord).get? i =
        some (initRecord (ctrs.get ⟨i, hi⟩)) := by
      rw [List.get?_map, List.get?_eq_get hi]
      rfl
    have hidx : (ord.map (fun k => (k, getStats (oracle k)))).map Prod.fst = ord := by
      rw [List.map_map]
      exact List.map_id _
    show (mergeStats (ctrs.map initRecord)
        (ord.map (fun k => (k, getStats (oracle k))))).get? i =
      some (if (ctrs.get ⟨i, hi⟩).state = "running"
        then applyStats (initRecord (ctrs.get ⟨i, hi⟩)) (getStats (oracle i))
        else initRecord (ctrs.get ⟨i, hi⟩))
    by_cases hrun : (ctrs.get ⟨i, hi⟩).state = "running"
    · have hmem : i ∈ ord := hp.mem_iff.mpr
        ((mem_runningIndices ctrs i).mpr ⟨hi, hrun⟩)
      have hmem2 : (i, getStats (oracle i)) ∈
          ord.map (fun k => (k, getStats (oracle k))) :=
        List.mem_map_of_mem _ hmem
      rw [mergeStats_get?_mem _ _ i (getStats (oracle i))
        (by rw [hidx]; exact hp.symm.nodup (runningIndices_nodup ctrs)) hmem2]
      rw [hbase, if_pos hrun]
      rfl
    · have hmem : i ∉ ord := fun h =>
        hrun (((mem_runningIndices ctrs i).mp (hp.mem_iff.mp h)).2)
      have hmem2 : i ∉ (ord.map (fun k => (k, getStats (oracle k)))).map Prod.fst := by
        rw [hidx]
        exact hmem
      rw [mergeStats_get?_not_mem _ _ i hmem2, hbase, if_neg hrun]
  refine ⟨?_, hlen order, hchar order hperm, rfl⟩
  refine List.ext_get? ?_
  intro n
  by_cases hn : n < ctrs.length
  · rw [hchar order hperm n hn, hchar (runningIndices ctrs) (List.Perm.refl _) n hn]
  · have h1 : (ListContainersWithStats ctrs true oracle order).get? n = none := by
      rw [List.get?_eq_none]
      rw [hlen order]
      omega
    have h2 : (ListContainersWithStats ctrs true oracle
        (runningIndices ctrs)).get? n = none := by
      rw [List.get?_eq_none]
      rw [hlen (runningIndices ctrs)]
      omega
    rw [h1, h2]

/-- A concrete runtime container for the C6 witness. -/
def wCtr (nm st : String) : RuntimeCtr :=
  ⟨"0123456789abcdef", ["/" ++ nm], "img", st, "Up", 0, []⟩

/-- Three containers: two running, one exited. -/
def wCtrs : List RuntimeCtr :=
  [wCtr "a" "running", wCtr "b" "exited", wCtr "c" "running"]

/-- Sampling succeeds for container 0 and fails for the others. -/
def wOracle : Nat → Option StatsResponse :=
  fun i => if i = 0 then some ⟨40, 100, 2, 0, 0, 500, 1000, [("eth0", 7, 9)]⟩
    else none

/-- Witness for C6: delivery order `[2, 0]`, the reverse of the dispatch
order `[0, 2]`. -/
theorem listWithStats_spec_witness :
    List.Perm [2, 0] (runningIndices wCtrs) ∧
    (ListContainersWithStats wCtrs true wOracle [2, 0] =
      ListContainersWithStats wCtrs true wOracle (runningIndices wCtrs) ∧
    (ListContainersWithStats wCtrs true wOracle [2, 0]).length = wCtrs.length ∧
    (∀ i : Nat, (hi : i < wCtrs.length) →
      (ListContainersWithStats wCtrs true wOracle [2, 0]).get? i =
        some (if (wCtrs.get ⟨i, hi⟩).state = "running"
          then applyStats (initRecord (wCtrs.get ⟨i, hi⟩)) (getStats (wOracle i))
          else initRecord (wCtrs.get ⟨i, hi⟩))) ∧
    getStats none = ⟨0, 0, "N/A", 0, 0⟩) :=
  ⟨by decide, listWithStats_spec wCtrs wOracle [2, 0] (by decide)⟩

/-- If an index already holds the value, `set` is the identity. -/
theorem set_get?_self {α : Type} :
    ∀ (l : List α) (i : Nat) (a : α), l.get? i = some a → l.set i a = l := by
  intro l
  induction l with
  | nil => intro i a h; cases h
  | cons x t ih =>
    intro i a h
    cases i with
    | zero =>
      injection h with h
      rw [List.set_cons_zero, h]
    | succ n =>
      rw [List.set_cons_succ, ih n a h]

/-- Merging stats never changes any record's lifecycle state. -/
theorem mergeStats_states :
    ∀ (rs : List (Nat × StatsData)) (base : List ContainerInfo),
      (mergeStats base rs).map (fun r => r.state) =
        base.map (fun r => r.state) := by
  intro rs
  induction rs with
  | nil => intro base; rfl
  | cons r rest ih =>
    intro base
    rw [mergeStats_cons, ih, mergeWrite]
    cases hb : base.get? r.1 with
    | none => rfl
    | some rc =>
      rw [List.map_set]
      have : (base.map (fun r => r.state)).get? r.1 = some rc.state := by
        rw [List.get?_map, hb]
        rfl
      exact set_get?_self _ r.1 _ this

/-- Every container node of a built tree carries a record from the input
list. -/
theorem buildTree_container_mem (cs : List ContainerInfo) :
    ∀ p ∈ (BuildTree cs).root.children, ∀ c ∈ p.children,
      ∀ info : ContainerInfo, c.container = some info → info ∈ cs := by
  intro p hp c hc info hinfo
  rw [buildTree_root] at hp
  simp only [TreeNode.children, List.mem_map] at hp
  obtain ⟨q, _, rfl⟩ := hp
  simp only [TreeNode.children, ctrNodesOf, List.mem_map] at hc
  obtain ⟨d, hd, rfl⟩ := hc
  simp only [TreeNode.container, Option.some.injEq] at hinfo
  subst hinfo
  rw [projCtrs] at hd
  have hd2 := (List.perm_insertionSort byNameLE _).mem_iff.mp hd
  exact List.mem_of_mem_filter hd2

/-- `ListContainersWithStats` with the runtime call included
(docker/client.go:57-62): the listing passes `ListOptions{All: false}` —
running-only — and propagates a listing error. `rt` is the runtime's
`ContainerList` endpoint indexed by the `All` option. -/
def ListContainersWithStatsRT (rt : Bool → Except String (List RuntimeCtr))
    (includeStats : Bool) (oracle : Nat → Option StatsResponse)
    (order : List Nat) : Except String (List ContainerInfo) :=
  match rt false with
  | Except.error e => Except.error e
  | Except.ok ctrs => Except.ok (ListContainersWithStats ctrs includeStats oracle order)

/-- The current `ListContainers` (docker/client.go:53-55): delegates to
`ListContainersWithStats(true)`. -/
def ListContainersRT (rt : Bool → Except String (List RuntimeCtr))
    (oracle : Nat → Option StatsResponse) (order : List Nat) :
    Except String (List ContainerInfo) :=
  ListContainersWithStatsRT rt true oracle order

/-- The older standalone `ListContainers` also present in the source file
(docker/client.go:303-338): same `All: false` listing, placeholder metrics
only. Its record struct lacks the net counters; modelled with the shared
record type, whose counters stay 0. -/
def ListContainersOld (rt : Bool → Except String (List RuntimeCtr)) :
    Except String (List ContainerInfo) :=
  match rt false with
  | Except.error e => Except.error e
  | Except.ok ctrs => Except.ok (ctrs.map initRecord)

/-- C10: every listing operation consults only the running-only query
(`All: false`) — two runtimes agreeing on that query give identical results,
so the all-containers filter is never requested — and, provided the runtime's
running-only query returns only running containers, every returned record has
state `"running"`, and so does every container node of the tree built from
the result. -/
theorem runningOnly_spec (rt rt' : Bool → Except String (List RuntimeCtr))
    (oracle : Nat → Option StatsResponse) (order : List Nat)
    (hagree : rt false = rt' false)
    (l : List RuntimeCtr) (hok : rt false = Except.ok l)
    (hrun : ∀ c ∈ l, c.state = "running") :
    (ListContainersWithStatsRT rt true oracle order =
        ListContainersWithStatsRT rt' true oracle order ∧
      ListContainersRT rt oracle order = ListContainersRT rt' oracle order ∧
      ListContainersOld rt = ListContainersOld rt') ∧
    (∀ cs : List ContainerInfo,
      ListContainersWithStatsRT rt true oracle order = Except.ok cs →
      (∀ r ∈ cs, r.state = "running") ∧
      ∀ p ∈ (BuildTree cs).root.children, ∀ c ∈ p.children,
        ∀ info : ContainerInfo, c.container = some info →
          info.state = "running") ∧
    (∀ cs : List ContainerInfo, ListContainersOld rt = Except.ok cs →
      ∀ r ∈ cs, r.state = "running") := by
  have hstates : ∀ r ∈ ListContainersWithStats l true oracle order,
      r.state = "running" := by
    intro r hr
    have hmem : r.state ∈ (ListContainersWithStats l true oracle order).map
        (fun r => r.state) := List.mem_map_of_mem _ hr
    have heq : (ListContainersWithStats l true oracle order).map
        (fun r => r.state) = l.map (fun c => c.state) := by
      show (mergeStats (l.map initRecord)
          (order.map (fun k => (k, getStats (oracle k))))).map (fun r => r.state)
        = l.map (fun c => c.state)
      rw [mergeStats_states, List.map_map]
      rfl
    rw [heq, List.mem_map] at hmem
    obtain ⟨c, hc, hcs⟩ := hmem
    rw [← hcs]
    exact hrun c hc
  refine ⟨⟨?_, ?_, ?_⟩, ?_, ?_⟩
  · rw [ListContainersWithStatsRT, ListContainersWithStatsRT, hagree]
  · rw [ListContainersRT, ListContainersRT,
      ListContainersWithStatsRT, ListContainersWithStatsRT, hagree]
  · rw [ListContainersOld, ListContainersOld, hagree]
  · intro cs hcs
    rw [ListContainersWithStatsRT, hok] at hcs
    injection hcs with hcs
    subst hcs
    refine ⟨hstates, ?_⟩
    intro p hp c hc info hinfo
    have hmem := buildTree_container_mem _ p hp c hc info hinfo
    exact hstates info hmem
  · intro cs hcs
    rw [ListContainersOld, hok] at hcs
    injection hcs with hcs
    subst hcs
    intro r hr
    rw [List.mem_map] at hr
    obtain ⟨c, hc, rfl⟩ := hr
    exact hrun c hc

/-- A one-container runtime for the C10 witness. -/
def wRT : Bool → Except String (List RuntimeCtr) :=
  fun _ => Except.ok [wCtr "a" "running"]

/-- Witness for C10 at a one-container runtime. -/
theorem runningOnly_spec_witness :
    wRT false = wRT false ∧
    wRT false = Except.ok [wCtr "a" "running"] ∧
    (∀ c ∈ [wCtr "a" "running"], c.state = "running") ∧
    (∀ cs : List ContainerInfo,
      ListContainersWithStatsRT wRT true wOracle [0] = Except.ok cs →
        ∀ r ∈ cs, r.state = "running") := by
  refine ⟨rfl, rfl, by decide, ?_⟩
  intro cs hcs
  exact ((runningOnly_spec wRT wRT wOracle [0] rfl
    [wCtr "a" "running"] rfl (by decide)).2.1 cs hcs).1

/-- The command-line flags `main` parses (main.go:17-20). -/
structure CliFlags where
  list : Bool
  listShort : Bool
  version : Bool
deriving DecidableEq, Repr

/-- What a `main` run produced. -/
structure MainResult where
  exitCode : Nat
  printedVersion : Bool
  printedTable : Bool
deriving DecidableEq, Repr

/-- `main` (main.go:15-59) as a function of the flags and the outcomes of its
effects: `clientOk` is whether `docker.NewClient` succeeded, `listOutcome`
the result of `ListContainers` in list mode, `tuiOk` whether the interactive
program ran without error. Control flow in source order: version flag first
(print and return, status 0); client creation failure exits 1; list mode
prints one snapshot table (built via `BuildTree`) and returns 0, or exits 1
if listing failed; otherwise the interactive loop runs, exiting 1 on error. -/
def mainRun (f : CliFlags) (clientOk : Bool)
    (listOutcome : Except String (List ContainerInfo)) (tuiOk : Bool) :
    MainResult :=
  if f.version then ⟨0, true, false⟩
  else if !clientOk then ⟨1, false, false⟩
  else if f.list || f.listShort then
    match listOutcome with
    | Except.error _ => ⟨1, false, false⟩
    | Except.ok _ => ⟨0, false, true⟩
  else if tuiOk then ⟨0, false, false⟩ else ⟨1, false, false⟩

/-- C9: in list/snapshot mode the program prints one table and exits 0 when
listing succeeds, and terminates with status 1 when listing fails; in version
mode it prints the version string and exits 0; a connection failure to the
runtime at startup (outside version mode) terminates with nonzero status. -/
theorem mainRun_spec (f : CliFlags) (clientOk : Bool)
    (listOutcome : Except String (List ContainerInfo)) (tuiOk : Bool) :
    (f.version = true →
      mainRun f clientOk listOutcome tuiOk = ⟨0, true, false⟩) ∧
    (f.version = false → clientOk = false →
      (mainRun f clientOk listOutcome tuiOk).exitCode ≠ 0) ∧
    (f.version = false → clientOk = true → (f.list || f.listShort) = true →
      (∀ e : String, listOutcome = Except.error e →
        (mainRun f clientOk listOutcome tuiOk).exitCode = 1 ∧
        (mainRun f clientOk listOutcome tuiOk).printedTable = false) ∧
      (∀ cs : List ContainerInfo, listOutcome = Except.ok cs →
        (mainRun f clientOk listOutcome tuiOk).exitCode = 0 ∧
        (mainRun f clientOk listOutcome tuiOk).printedTable = true)) := by
  refine ⟨?_, ?_, ?_⟩
  · intro hv
    rw [mainRun.eq_def, if_pos hv]
  · intro hv hc
    rw [mainRun.eq_def, if_neg (by simp [hv]), if_pos (by simp [hc])]
    decide
  · intro hv hc hmode
    constructor
    · intro e he
      subst he
      rw [mainRun.eq_def, if_neg (by simp [hv]), if_neg (by simp [hc]),
        if_pos hmode]
      exact ⟨rfl, rfl⟩
    · intro cs hcs
      subst hcs
      rw [mainRun.eq_def, if_neg (by simp [hv]), if_neg (by simp [hc]),
        if_pos hmode]
      exact ⟨rfl, rfl⟩

/-- Witness for C9: list mode with a failing listing exits 1; version mode
prints the version and exits 0. -/
theorem mainRun_spec_witness :
    ((⟨true, false, false⟩ : CliFlags).version = false → True) ∧
    (mainRun ⟨true, false, false⟩ true (Except.error "no docker") true).exitCode
      = 1 ∧
    mainRun ⟨false, false, true⟩ false (Except.ok []) true = ⟨0, true, false⟩ ∧
    (mainRun ⟨false, false, false⟩ false (Except.ok []) true).exitCode ≠ 0 := by
  refine ⟨fun _ => trivial, ?_, ?_, ?_⟩
  · exact ((mainRun_spec ⟨true, false, false⟩ true (Except.error "no docker")
      true).2.2 rfl rfl rfl).1 "no docker" rfl |>.1
  · exact (mainRun_spec ⟨false, false, true⟩ false (Except.ok []) true).1 rfl
  · exact (mainRun_spec ⟨false, false, false⟩ false (Except.ok []) true).2.1
      rfl rfl

end Dtop
